import Mathlib

set_option maxRecDepth 100000

/-!
Verification development for the pistache HTTP toolkit specification.

The logger component is embedded directly from `src/common/string_logger.cc`.
The asynchronous continuation engine (promises, `whenAll`, `Barrier`), the
reactor timeout machinery, the HTTP parsing state machine, the response
compression pipeline and the `ResponseWriter` are exercised by the test suite
(`tests/http_server_test.cc`) but their implementation files are not part of
this source tree; those components are modelled from the specification text,
as marked on each definition.
-/

namespace Pistache

/-! ## Logger (`src/common/string_logger.cc`)

`StringToStreamLogger` holds an optional output stream `out_` and a threshold
`level_`.  `log(level, message)` writes `message` followed by an end-of-line
to the stream, and mirrors the message to the syslog sink, exactly when the
stream pointer is non-null and `isEnabledFor(level)` holds;
`isEnabledFor(level)` is `static_cast<int>(level) >= static_cast<int>(level_)`.
Severity levels are embedded as their integer (`static_cast<int>`) values;
the stream is embedded as the string written to it so far (`none` = null). -/

structure StringToStreamLogger where
  out : Option String
  level : Int
  deriving Repr, DecidableEq

/-- `StringToStreamLogger::isEnabledFor`: integer comparison of severities. -/
def isEnabledFor (lg : StringToStreamLogger) (lvl : Int) : Bool :=
  decide (lvl ≥ lg.level)

/-- The state `log` acts on: the logger itself plus the syslog sink
(`PSLogNoLocFn` is embedded as appending the message to a list). -/
structure LogState where
  logger : StringToStreamLogger
  syslog : List String
  deriving Repr, DecidableEq

/-- `StringToStreamLogger::log`: when the stream is present and the level is
enabled, write `message` plus end-of-line to the stream and mirror the
message to syslog; otherwise do nothing. -/
def logRun (st : LogState) (lvl : Int) (msg : String) : LogState :=
  match st.logger.out with
  | none => st
  | some s =>
      if isEnabledFor st.logger lvl then
        { logger := { st.logger with out := some (s ++ msg ++ "\n") }
          syslog := st.syslog ++ [msg] }
      else st

end Pistache

namespace Pistache.Async

/-! ## Continuation engine (modelled from the spec)

Modelled from the spec: the promise implementation (`pistache/async.h`) is not
in this source tree; the model follows §3 "Promise<T>" and §4.1 of the spec.
A promise has states {Pending, Resolved(v), Rejected(e)}; `resolve`/`reject`
transition Pending to a settled state exactly once (a second call on a settled
promise is ignored silently); `then` registers a continuation pair, which is
invoked the first time the promise settles, or immediately if the promise is
already settled when registered; continuations fire in registration order.
Values and errors are embedded as `Nat`; a continuation is identified by the
index of its registering `then` operation in the operation sequence. -/

inductive Status where
  | pending : Status
  | resolved (v : Nat) : Status
  | rejected (e : Nat) : Status
  deriving Repr, DecidableEq

/-- A promise is settled when it is no longer pending. -/
def Status.settled : Status → Bool
  | .pending => false
  | .resolved _ => true
  | .rejected _ => true

/-- Promise state: settlement status, registered-but-not-yet-invoked
continuation ids, and the log of invoked continuation ids in invocation
order. -/
structure PState where
  status : Status
  conts : List Nat
  fired : List Nat
  deriving Repr, DecidableEq

/-- Operations applied to a promise: `resolve(v)`, `reject(e)`, or a `then`
registration (identified by its position in the operation sequence). -/
inductive Op where
  | resolveOp (v : Nat) : Op
  | rejectOp (e : Nat) : Op
  | thenOp : Op
  deriving Repr, DecidableEq

/-- Modelled from the spec: one operation on a promise.  Settling a pending
promise invokes all registered continuations in registration order; settling
an already-settled promise is a silent no-op; a `then` on a settled promise
invokes its continuation immediately, otherwise it is queued. -/
def step (s : PState) (i : Nat) : Op → PState
  | .resolveOp v =>
      if s.status.settled then s
      else ⟨.resolved v, [], s.fired ++ s.conts⟩
  | .rejectOp e =>
      if s.status.settled then s
      else ⟨.rejected e, [], s.fired ++ s.conts⟩
  | .thenOp =>
      if s.status.settled then { s with fired := s.fired ++ [i] }
      else { s with conts := s.conts ++ [i] }

/-- Run a sequence of operations, numbering them from `i`. -/
def runFrom : PState → Nat → List Op → PState
  | s, _, [] => s
  | s, i, op :: ops => runFrom (step s i op) (i + 1) ops

/-- A freshly created promise: pending, no continuations. -/
def initPromise : PState := ⟨.pending, [], []⟩

/-- Run a full operation sequence on a fresh promise. -/
def run (ops : List Op) : PState := runFrom initPromise 0 ops

/-- The indices of the `then` registrations in an operation sequence, in
registration order, numbering from `i`. -/
def thenIdxFrom : Nat → List Op → List Nat
  | _, [] => []
  | i, .thenOp :: ops => i :: thenIdxFrom (i + 1) ops
  | i, .resolveOp _ :: ops => thenIdxFrom (i + 1) ops
  | i, .rejectOp _ :: ops => thenIdxFrom (i + 1) ops

/-- Whether the operation sequence contains a settle operation. -/
def hasSettle : List Op → Bool
  | [] => false
  | .thenOp :: ops => hasSettle ops
  | .resolveOp _ :: _ => true
  | .rejectOp _ :: _ => true

/-! ### Barrier (modelled from the spec)

Modelled from the spec: `Barrier<T>` (`pistache/async.h`) is not in this
source tree; the model follows §3 "Barrier<T>" and §4.1 "Barrier.wait_for".
The underlying promise's history is a list of time-stamped operations
(times nondecreasing); `wait_for(d)` observes the promise state produced by
the operations that happened at time ≤ `d` and blocks no longer: it returns
a timed-out indication (distinct from a rejection) when that state is still
pending, the settled value when resolved, and re-raises the rejection when
rejected.  It performs no cancellation: it does not modify the promise. -/

inductive WaitResult where
  | timedOut : WaitResult
  | value (v : Nat) : WaitResult
  | raised (e : Nat) : WaitResult
  deriving Repr, DecidableEq

/-- The promise operations that have happened by time `d`. -/
def windowOps (events : List (Nat × Op)) (d : Nat) : List Op :=
  (events.takeWhile (fun p => decide (p.1 ≤ d))).map (fun p => p.2)

/-- All operations of the timed trace, in order. -/
def allOps (events : List (Nat × Op)) : List Op :=
  events.map (fun p => p.2)

/-- Modelled from the spec: `Barrier.wait_for(d)`. -/
def waitFor (events : List (Nat × Op)) (d : Nat) : WaitResult :=
  match (run (windowOps events d)).status with
  | .pending => .timedOut
  | .resolved v => .value v
  | .rejected e => .raised e

/-! ### whenAll (modelled from the spec)

Modelled from the spec: `Async::whenAll` (`pistache/async.h`) is not in this
source tree; the model follows §4.1 "whenAll(promises)".  The `N` input
promises are given by their eventual settlements `inputs : List (Except e v)`
(input order), and the order in which they complete is a permutation `order`
of their indices.  The combinator processes completion events one at a time:
a resolution stores its value in the slot of that input; when the last slot
fills, the whenAll promise resolves with the ordered collection of all
values; a rejection settles the whenAll promise with that error if it is not
yet settled (first-error-wins); events arriving after settlement are
ignored — inputs are never cancelled (the model has no cancellation
operation; `inputs` is read-only). -/

/-- whenAll combinator state: one value slot per input, and the result
promise's settlement (`none` = still pending). -/
structure WState where
  slots : List (Option Nat)
  result : Option (Except Nat (List Nat))
  deriving Repr

/-- The value of a resolved input, `none` for a rejected one. -/
def okVal : Except Nat Nat → Option Nat
  | .ok v => some v
  | .error _ => none

/-- Initial whenAll state: all slots empty; with zero inputs the result
resolves immediately with the empty collection. -/
def wInit (inputs : List (Except Nat Nat)) : WState :=
  ⟨List.replicate inputs.length none,
   if inputs.length = 0 then some (.ok []) else none⟩

/-- Every slot holds a value. -/
def allFilled (slots : List (Option Nat)) : Bool :=
  slots.all (fun o => o.isSome)

/-- Modelled from the spec: process the completion of input `i`. -/
def wstep (inputs : List (Except Nat Nat)) (s : WState) (i : Nat) : WState :=
  if s.result.isSome then s
  else
    match inputs[i]? with
    | some (.ok v) =>
        let slots := s.slots.set i (some v)
        if allFilled slots then
          ⟨slots, some (.ok (slots.map (fun o => o.getD 0)))⟩
        else ⟨slots, none⟩
    | some (.error e) => ⟨s.slots, some (.error e)⟩
    | none => s

/-- Run whenAll over the completion order. -/
def wrun (inputs : List (Except Nat Nat)) (order : List Nat) : WState :=
  order.foldl (wstep inputs) (wInit inputs)

/-- The first error among the inputs, in completion order. -/
def firstError (inputs : List (Except Nat Nat)) : List Nat → Option Nat
  | [] => none
  | i :: rest =>
      match inputs[i]? with
      | some (.error e) => some e
      | _ => firstError inputs rest

/-- The slot contents of input `j` after the completions `seen`. -/
def slotAt (inputs : List (Except Nat Nat)) (seen : List Nat) (j : Nat) :
    Option Nat :=
  if j ∈ seen then
    match inputs[j]? with
    | some (.ok v) => some v
    | _ => none
  else none

/-- The slot list after the completions `seen`. -/
def slotsOf (inputs : List (Except Nat Nat)) (seen : List Nat) :
    List (Option Nat) :=
  (List.range inputs.length).map (slotAt inputs seen)

/-- Whether `seen` covers every input index. -/
def covers (n : Nat) (seen : List Nat) : Bool :=
  (List.range n).all (fun i => decide (i ∈ seen))

/-- The ordered collection of the inputs' values (0 for rejected inputs;
only used when all inputs resolve). -/
def valuesOf (inputs : List (Except Nat Nat)) : List Nat :=
  inputs.map (fun x => (okVal x).getD 0)

/-- Invariant of the whenAll run after the completions `seen`: if an error
has been observed, the result is the first such error; otherwise the slots
record exactly the resolutions seen so far and the result is pending until
every input has resolved. -/
def WInv (inputs : List (Except Nat Nat)) (seen : List Nat) (s : WState) :
    Prop :=
  match firstError inputs seen with
  | some e => s.result = some (.error e)
  | none =>
      s.slots = slotsOf inputs seen ∧
      s.result = if covers inputs.length seen then some (.ok (valuesOf inputs))
                 else none

end Pistache.Async

namespace Pistache.Http

/-! ## HTTP parsing state machine and read deadlines (modelled from the spec)

Modelled from the spec: the HTTP parser and the reactor timeout sweep
(`pistache/http.h`, the transport sources) are not in this source tree; the
model follows §4.3 (states Idle/ParsingRequestLine/ParsingHeaders/
ParsingBody/Complete, resumable across partial reads, `Content-Length`
framing) and §4.2/§6 (the timeout sweep: the header-read deadline is checked
while awaiting headers and must fire even if no bytes ever arrive; crossing
into body parsing activates the body-read deadline measured from when body
parsing starts; on expiry the worker synthesizes a `408 Request Timeout`
response, writes it, and closes the connection).  A connection is a list of
time-stamped byte deliveries, times nondecreasing from connection start 0;
the sweep fires exactly at the expired deadline, the simplest behaviour
satisfying "no earlier than configured, eventually after". -/

inductive Phase where
  | requestLine : Phase
  | headers : Phase
  | body : Phase
  | complete : Phase
  deriving Repr, DecidableEq

/-- Incremental parser state: current phase, partial-line buffer, declared
`Content-Length`, and body bytes consumed so far. -/
structure ParseState where
  phase : Phase
  line : List Char
  contentLength : Nat
  bodyRead : Nat
  deriving Repr, DecidableEq

/-- `pre` is a leading segment of `l`. -/
def listStarts : List Char → List Char → Bool
  | [], _ => true
  | _ :: _, [] => false
  | a :: pre, b :: l => a = b && listStarts pre l

/-- Decimal digits to a number. -/
def digitsVal (l : List Char) : Nat :=
  l.foldl (fun a c => a * 10 + (c.toNat - 48)) 0

/-- Parse a `Content-Length` header line (without its CRLF). -/
def parseContentLength (l : List Char) : Option Nat :=
  if listStarts ("Content-Length: ".toList) l then
    some (digitsVal (l.drop ("Content-Length: ".toList).length))
  else none

/-- Modelled from the spec: consume one byte.  The request line ends at CRLF;
each header line ends at CRLF; the empty header line ends the header section,
entering body parsing when a positive `Content-Length` was declared and
completing the message otherwise; body parsing completes after
`contentLength` bytes. -/
def pstep (p : ParseState) (c : Char) : ParseState :=
  match p.phase with
  | .complete => p
  | .body =>
      let br := p.bodyRead + 1
      if p.contentLength ≤ br then { p with phase := .complete, bodyRead := br }
      else { p with bodyRead := br }
  | .requestLine =>
      if c = '\n' && p.line.getLast? = some '\r' then
        { p with phase := .headers, line := [] }
      else { p with line := p.line ++ [c] }
  | .headers =>
      if c = '\n' && p.line.getLast? = some '\r' then
        let l := p.line.dropLast
        if l.isEmpty then
          if p.contentLength = 0 then { p with phase := .complete, line := [] }
          else { p with phase := .body, line := [] }
        else
          match parseContentLength l with
          | some n => { p with contentLength := n, line := [] }
          | none => { p with line := [] }
      else { p with line := p.line ++ [c] }

/-- Feed a chunk of bytes; the parser is resumable across partial reads. -/
def feed (p : ParseState) (cs : List Char) : ParseState := cs.foldl pstep p

/-- Parser state at the start of a connection. -/
def initParse : ParseState := ⟨.requestLine, [], 0, 0⟩

/-- The header section (request line + headers) has been fully received. -/
def headersDone (p : ParseState) : Bool :=
  match p.phase with
  | .body => true
  | .complete => true
  | _ => false

/-- The complete message (including any body) has been received. -/
def msgDone (p : ParseState) : Bool :=
  match p.phase with
  | .complete => true
  | _ => false

/-- The delivery time of the first chunk after which `pred` holds of the
parser, if any. -/
def timeOf (pred : ParseState → Bool) :
    ParseState → List (Nat × List Char) → Option Nat
  | _, [] => none
  | p, (t, d) :: rest =>
      let q := feed p d
      if pred q then some t else timeOf pred q rest

/-- The server's reaction to the connection: a synthesized
`408 Request Timeout` (after which the connection is closed) issued at the
expired deadline, or a normal response when the complete request arrived
within both deadlines. -/
inductive SrvOutcome where
  | r408 (issuedAt : Nat) : SrvOutcome
  | r200 (issuedAt : Nat) : SrvOutcome
  deriving Repr, DecidableEq

/-- Modelled from the spec: deadline enforcement for one connection.
The header-read deadline `hT` runs from connection start (time 0); if the
header section is not complete by `hT`, the sweep issues a 408 at `hT` —
also when no bytes ever arrive.  Once headers complete at `th ≤ hT`, the
body-read deadline `bT` runs from `th` (when body parsing starts),
independent of `hT`: if the message is not complete by `th + bT`, the sweep
issues a 408 at `th + bT`; otherwise the request is served normally. -/
def serverOutcome (hT bT : Nat) (events : List (Nat × List Char)) :
    SrvOutcome :=
  match timeOf headersDone initParse events with
  | none => .r408 hT
  | some th =>
      if hT < th then .r408 hT
      else
        match timeOf msgDone initParse events with
        | none => .r408 (th + bT)
        | some tb => if th + bT < tb then .r408 (th + bT) else .r200 tb

/-- Whether the outcome is a 408 Request Timeout. -/
def is408 : SrvOutcome → Bool
  | .r408 _ => true
  | .r200 _ => false

/-- The server closes the connection after a 408. -/
def connClosed : SrvOutcome → Bool
  | .r408 _ => true
  | .r200 _ => false

/-- Modelled from the spec: the status line the server emits (§6: the server
emits `408 Request Timeout` when a deadline expires). -/
def statusLineOf : SrvOutcome → String
  | .r408 _ => "HTTP/1.1 408 Request Timeout\r\n\r\n"
  | .r200 _ => "HTTP/1.1 200 OK\r\n"

/-- String version of `listStarts`. -/
def strStarts (pre s : String) : Bool := listStarts pre.toList s.toList

/-- The header section completes within the header-read deadline. -/
def headersBy (hT : Nat) (events : List (Nat × List Char)) : Bool :=
  match timeOf headersDone initParse events with
  | some th => decide (th ≤ hT)
  | none => false

/-- Headers complete within `hT` and the whole message within `bT` of the
headers completing. -/
def fullWithin (hT bT : Nat) (events : List (Nat × List Char)) : Bool :=
  match timeOf headersDone initParse events,
        timeOf msgDone initParse events with
  | some th, some tb => decide (th ≤ hT) && decide (tb ≤ th + bT)
  | _, _ => false

/-- The message completes within `bT` of the headers completing at `th`. -/
def bodyDoneWithin (bT th : Nat) (events : List (Nat × List Char)) : Bool :=
  match timeOf msgDone initParse events with
  | some tb => decide (tb ≤ th + bT)
  | none => false

end Pistache.Http

namespace Pistache.Compression

/-! ## Response compression (modelled from the spec)

Modelled from the spec: the compression pipeline (`ResponseWriter`
compression and the codec backends) is not in this source tree; the model
follows §4.3 "Response compression".  The negotiation picks the strongest
mutually supported encoding the client lists, with a deterministic priority
(deflate, then gzip, then identity, matching the encodings observed in §9);
the writer transforms the body through the chosen encoder before framing and
sets the corresponding `Content-Encoding` header.  The concrete deflate/gzip
codecs are external (zlib); each is modelled as an executable lossless codec
satisfying the spec's contract that the emitted bytes are the exact
compressed representation and that decoding reconstructs the original bytes
exactly (deflate: run-length pairs; gzip: the same stream behind a 2-byte
magic header; identity: the bytes unchanged). -/

inductive Encoding where
  | deflate : Encoding
  | gzip : Encoding
  | identity : Encoding
  deriving Repr, DecidableEq

/-- Run-length encode a byte stream into (count, byte) pairs. -/
def rleEncode : List Nat → List (Nat × Nat)
  | [] => []
  | x :: xs =>
      match rleEncode xs with
      | [] => [(1, x)]
      | (n, y) :: rest =>
          if x = y then (n + 1, y) :: rest else (1, x) :: (n, y) :: rest

/-- Expand run-length (count, byte) pairs. -/
def rleDecode : List (Nat × Nat) → List Nat
  | [] => []
  | (n, y) :: rest => List.replicate n y ++ rleDecode rest

/-- Serialize the pairs as a flat byte stream. -/
def flattenPairs : List (Nat × Nat) → List Nat
  | [] => []
  | (n, y) :: rest => n :: y :: flattenPairs rest

/-- Decode a flat run-length byte stream. -/
def unflattenDecode : List Nat → List Nat
  | n :: y :: rest => List.replicate n y ++ unflattenDecode rest
  | _ => []

/-- Modelled from the spec: the encoder for each supported encoding. -/
def encodeBytes : Encoding → List Nat → List Nat
  | .identity, bs => bs
  | .deflate, bs => flattenPairs (rleEncode bs)
  | .gzip, bs => 31 :: 139 :: flattenPairs (rleEncode bs)

/-- Modelled from the spec: the compliant decoder for each encoding. -/
def decodeBytes : Encoding → List Nat → List Nat
  | .identity, bs => bs
  | .deflate, bs => unflattenDecode bs
  | .gzip, bs => unflattenDecode (bs.drop 2)

/-- Modelled from the spec: `getBestAcceptEncoding` — the strongest
encoding the client listed, deterministic priority deflate > gzip >
identity. -/
def bestAcceptEncoding (accepts : List Encoding) : Encoding :=
  if accepts.contains .deflate then .deflate
  else if accepts.contains .gzip then .gzip
  else .identity

/-- The compressed response as emitted: the `Content-Encoding` header value
and the body bytes on the wire. -/
structure EmittedResponse where
  contentEncoding : Encoding
  bytes : List Nat
  deriving Repr, DecidableEq

/-- Modelled from the spec: the server encodes the handler's body under the
negotiated encoding and names that encoding in the Content-Encoding
header. -/
def serverEmit (accepts : List Encoding) (body : List Nat) :
    EmittedResponse :=
  ⟨bestAcceptEncoding accepts, encodeBytes (bestAcceptEncoding accepts) body⟩

end Pistache.Compression

namespace Pistache.Writer

/-! ## ResponseWriter (modelled from the spec)

Modelled from the spec: `ResponseWriter` is not in this source tree; the
model follows §4.4 and §3 "ResponseWriter".  `send(code, body)` serializes
the status line, the headers (with the computed `Content-Length`) and the
body; after the call `getResponseSize()`/`getResponseCode()` return the
serialized byte count and status code used for that send — the only state
outliving the call; the writer is terminal once `send` is invoked, and a
second `send` on the same writer fails with an invalid-state error. -/

/-- Decimal digit characters of a number, most significant first. -/
def decDigits (n : Nat) : List Char :=
  if h : n < 10 then [Char.ofNat (48 + n)]
  else decDigits (n / 10) ++ [Char.ofNat (48 + n % 10)]
termination_by n
decreasing_by exact Nat.div_lt_self (by omega) (by omega)

/-- The serialized response bytes for one send: status line,
`Content-Length` header, blank line, body. -/
def serializedChars (code : Nat) (body : List Char) : List Char :=
  "HTTP/1.1 ".toList ++ decDigits code ++ "\r\n".toList
    ++ "Content-Length: ".toList ++ decDigits body.length
    ++ "\r\n\r\n".toList ++ body

/-- Writer state: whether `send` has run, and the stored code and size. -/
structure ResponseWriter where
  sent : Bool
  code : Nat
  size : Nat
  deriving Repr, DecidableEq

/-- A writer freshly created for a request. -/
def freshWriter : ResponseWriter := ⟨false, 0, 0⟩

inductive SendError where
  | invalidState : SendError
  deriving Repr, DecidableEq

/-- Modelled from the spec: `ResponseWriter::send`. -/
def send (w : ResponseWriter) (code : Nat) (body : List Char) :
    Except SendError ResponseWriter :=
  if w.sent then .error .invalidState
  else .ok ⟨true, code, (serializedChars code body).length⟩

/-- `getResponseCode`: the status code stored by the send. -/
def getResponseCode (w : ResponseWriter) : Nat := w.code

/-- `getResponseSize`: the serialized byte count stored by the send. -/
def getResponseSize (w : ResponseWriter) : Nat := w.size

end Pistache.Writer

namespace Pistache.Async

theorem runFrom_append (a : List Op) :
    ∀ (s : PState) (i : Nat) (b : List Op),
      runFrom s i (a ++ b) = runFrom (runFrom s i a) (i + a.length) b := by
  induction a with
  | nil => intro s i b; simp [runFrom]
  | cons op ops ih =>
      intro s i b
      show runFrom (step s i op) (i + 1) (ops ++ b)
          = runFrom (runFrom (step s i op) (i + 1) ops) (i + (op :: ops).length) b
      rw [ih]
      have h : i + 1 + ops.length = i + (op :: ops).length := by
        simp [List.length_cons]; omega
      rw [h]

theorem step_of_settled (s : PState) (i : Nat) (op : Op)
    (h : s.status.settled = true) :
    (step s i op).status = s.status ∧ (step s i op).conts = s.conts := by
  cases op <;> simp [step, h]

theorem runFrom_settled (ops : List Op) :
    ∀ (s : PState) (i : Nat), s.status.settled = true →
      (runFrom s i ops).status = s.status
      ∧ (runFrom s i ops).conts = s.conts
      ∧ (runFrom s i ops).fired = s.fired ++ thenIdxFrom i ops := by
  induction ops with
  | nil => intro s i h; simp [runFrom, thenIdxFrom]
  | cons op ops ih =>
      intro s i h
      cases op with
      | resolveOp v =>
          have hstep : step s i (.resolveOp v) = s := by simp [step, h]
          simp only [runFrom, hstep, thenIdxFrom]
          exact ih s (i + 1) h
      | rejectOp e =>
          have hstep : step s i (.rejectOp e) = s := by simp [step, h]
          simp only [runFrom, hstep, thenIdxFrom]
          exact ih s (i + 1) h
      | thenOp =>
          have hstep : step s i .thenOp = { s with fired := s.fired ++ [i] } := by
            simp [step, h]
          simp only [runFrom, hstep, thenIdxFrom]
          obtain ⟨h1, h2, h3⟩ := ih { s with fired := s.fired ++ [i] } (i + 1) h
          refine ⟨h1, h2, ?_⟩
          simpa [List.append_assoc] using h3

theorem runFrom_pending_noSettle (ops : List Op) :
    ∀ (s : PState) (i : Nat), s.status.settled = false →
      hasSettle ops = false →
      runFrom s i ops = ⟨s.status, s.conts ++ thenIdxFrom i ops, s.fired⟩ := by
  induction ops with
  | nil => intro s i _ _; simp [runFrom, thenIdxFrom]
  | cons op ops ih =>
      intro s i hp hns
      cases op with
      | resolveOp v => simp [hasSettle] at hns
      | rejectOp e => simp [hasSettle] at hns
      | thenOp =>
          have hstep : step s i .thenOp = { s with conts := s.conts ++ [i] } := by
            simp [step, hp]
          simp only [runFrom, hstep, thenIdxFrom]
          rw [ih { s with conts := s.conts ++ [i] } (i + 1) hp (by simpa [hasSettle] using hns)]
          simp [List.append_assoc]

theorem runFrom_pending_settle (ops : List Op) :
    ∀ (s : PState) (i : Nat), s.status.settled = false →
      hasSettle ops = true →
      (runFrom s i ops).status.settled = true
      ∧ (runFrom s i ops).conts = []
      ∧ (runFrom s i ops).fired = s.fired ++ s.conts ++ thenIdxFrom i ops := by
  induction ops with
  | nil => intro s i _ h; simp [hasSettle] at h
  | cons op ops ih =>
      intro s i hp hs
      cases op with
      | resolveOp v =>
          have hstep : step s i (.resolveOp v)
              = ⟨.resolved v, [], s.fired ++ s.conts⟩ := by simp [step, hp]
          simp only [runFrom, hstep, thenIdxFrom]
          obtain ⟨h1, h2, h3⟩ :=
            runFrom_settled ops ⟨.resolved v, [], s.fired ++ s.conts⟩ (i + 1) (by simp [Status.settled])
          refine ⟨by rw [h1]; rfl, by simpa using h2, ?_⟩
          simpa [List.append_assoc] using h3
      | rejectOp e =>
          have hstep : step s i (.rejectOp e)
              = ⟨.rejected e, [], s.fired ++ s.conts⟩ := by simp [step, hp]
          simp only [runFrom, hstep, thenIdxFrom]
          obtain ⟨h1, h2, h3⟩ :=
            runFrom_settled ops ⟨.rejected e, [], s.fired ++ s.conts⟩ (i + 1) (by simp [Status.settled])
          refine ⟨by rw [h1]; rfl, by simpa using h2, ?_⟩
          simpa [List.append_assoc] using h3
      | thenOp =>
          have hstep : step s i .thenOp = { s with conts := s.conts ++ [i] } := by
            simp [step, hp]
          simp only [runFrom, hstep, thenIdxFrom]
          obtain ⟨h1, h2, h3⟩ :=
            ih { s with conts := s.conts ++ [i] } (i + 1) hp (by simpa [hasSettle] using hs)
          refine ⟨h1, h2, ?_⟩
          simpa [List.append_assoc] using h3

/-- Once settled, running further operations never changes the status. -/
theorem run_status_frozen (ops extra : List Op)
    (h : (run ops).status.settled = true) :
    (run (ops ++ extra)).status = (run ops).status := by
  have := runFrom_settled extra (run ops) ops.length h
  rw [run, runFrom_append ops initPromise 0 extra]
  simpa using this.1

/-- When the promise has settled, the invocation log is exactly the `then`
registration indices in registration order. -/
theorem run_fired_of_settled (ops : List Op)
    (h : (run ops).status.settled = true) :
    (run ops).fired = thenIdxFrom 0 ops := by
  cases hs : hasSettle ops with
  | false =>
      have := runFrom_pending_noSettle ops initPromise 0 rfl hs
      rw [run, this] at h
      simp [initPromise, Status.settled] at h
  | true =>
      have := runFrom_pending_settle ops initPromise 0 rfl hs
      rw [run]
      simpa [initPromise] using this.2.2

/-- While the promise is pending, nothing has fired and all registrations
are queued in registration order. -/
theorem run_pending_shape (ops : List Op)
    (h : (run ops).status.settled = false) :
    (run ops).fired = [] ∧ (run ops).conts = thenIdxFrom 0 ops := by
  cases hs : hasSettle ops with
  | false =>
      have := runFrom_pending_noSettle ops initPromise 0 rfl hs
      rw [run, this]
      simp [initPromise]
  | true =>
      have := runFrom_pending_settle ops initPromise 0 rfl hs
      rw [run] at h
      rw [this.1] at h
      cases h

/-- Claim C1: promise settlement is at-most-once and monotonic — once the
promise is Resolved or Rejected, any further operations (including further
resolves and rejects) leave its state unchanged, so exactly one of
resolved/rejected can occur over its lifetime; when the promise settles,
every continuation registered via `then` — before or after settlement — has
been invoked exactly once, in registration order (the invocation log equals
the list of registration indices in order); while the promise is pending,
no continuation has been invoked and all registrations are queued in
registration order. -/
theorem spec_C1 (ops extra : List Op) :
    ((run ops).status.settled = true →
      (run (ops ++ extra)).status = (run ops).status)
    ∧ ((run ops).status.settled = true →
      (run ops).fired = thenIdxFrom 0 ops)
    ∧ ((run ops).status.settled = false →
      (run ops).fired = [] ∧ (run ops).conts = thenIdxFrom 0 ops) :=
  ⟨run_status_frozen ops extra, run_fired_of_settled ops, run_pending_shape ops⟩

/-- Witness for C1: a continuation registered before and one after the
resolve both fire, in registration order; a later reject does not change the
resolved status. -/
theorem spec_C1_witness :
    (Pistache.Async.run
        ([.thenOp, .resolveOp 5, .thenOp] ++ [.rejectOp 9])).status
      = (Pistache.Async.run [.thenOp, .resolveOp 5, .thenOp]).status
    ∧ (Pistache.Async.run [.thenOp, .resolveOp 5, .thenOp]).fired
      = thenIdxFrom 0 [.thenOp, .resolveOp 5, .thenOp] :=
  ⟨(spec_C1 [.thenOp, .resolveOp 5, .thenOp] [.rejectOp 9]).1 (by decide),
   (spec_C1 [.thenOp, .resolveOp 5, .thenOp] [.rejectOp 9]).2.1 (by decide)⟩

/-- Claim C3: `Barrier.wait_for(d)` returns the timed-out indication exactly
when the underlying promise has not settled within `d`; otherwise it returns
the settled value (when resolved) or re-raises the rejection (when rejected)
— and the timed-out indication is distinct from a rejection.  A timed-out
`wait_for` does not cancel the underlying work: the promise may still settle
later, and if the full trace settles it, every already-registered
continuation still fires, exactly once and in registration order. -/
theorem spec_C3 (events : List (Nat × Op)) (d : Nat) :
    (waitFor events d = .timedOut ↔
      (run (windowOps events d)).status = .pending)
    ∧ (∀ v, (run (windowOps events d)).status = .resolved v →
        waitFor events d = .value v)
    ∧ (∀ e, (run (windowOps events d)).status = .rejected e →
        waitFor events d = .raised e)
    ∧ (∀ e, WaitResult.timedOut ≠ WaitResult.raised e)
    ∧ (waitFor events d = .timedOut →
        (run (allOps events)).status.settled = true →
        (run (allOps events)).fired = thenIdxFrom 0 (allOps events)) := by
  refine ⟨?_, ?_, ?_, ?_, ?_⟩
  · unfold waitFor
    cases h : (run (windowOps events d)).status <;> simp [h]
  · intro v h; unfold waitFor; rw [h]
  · intro e h; unfold waitFor; rw [h]
  · intro e h; cases h
  · intro _ hs
    exact run_fired_of_settled (allOps events) hs

/-- Witness for C3: a continuation is registered at time 0, the promise
resolves at time 5; waiting until deadline 2 times out, yet the full trace
settles and the continuation fires. -/
theorem spec_C3_witness :
    waitFor [(0, .thenOp), (5, .resolveOp 7)] 2 = .timedOut
    ∧ (run (allOps [(0, .thenOp), (5, .resolveOp 7)])).fired
        = thenIdxFrom 0 (allOps [(0, .thenOp), (5, .resolveOp 7)]) :=
  ⟨(spec_C3 [(0, .thenOp), (5, .resolveOp 7)] 2).1.mpr (by decide),
   (spec_C3 [(0, .thenOp), (5, .resolveOp 7)] 2).2.2.2.2 (by decide) (by decide)⟩

theorem firstError_append (inputs : List (Except Nat Nat)) (a b : List Nat) :
    firstError inputs (a ++ b)
      = match firstError inputs a with
        | some e => some e
        | none => firstError inputs b := by
  induction a with
  | nil => simp [firstError]
  | cons j rest ih =>
      simp only [List.cons_append, firstError]
      cases h : inputs[j]? with
      | none => simpa using ih
      | some x =>
          cases x with
          | ok v => simpa using ih
          | error e => simp

theorem firstError_none_mem (inputs : List (Except Nat Nat)) (seen : List Nat)
    (h : firstError inputs seen = none) :
    ∀ j ∈ seen, ∀ e, inputs[j]? ≠ some (.error e) := by
  induction seen with
  | nil => intro j hj; cases hj
  | cons i rest ih =>
      intro j hj e he
      rcases List.mem_cons.mp hj with rfl | hj'
      · simp [firstError, he] at h
      · cases hx : inputs[i]? with
        | none =>
            simp only [firstError, hx] at h
            exact ih h j hj' e he
        | some x =>
            cases x with
            | ok v =>
                simp only [firstError, hx] at h
                exact ih h j hj' e he
            | error e2 => simp [firstError, hx] at h

theorem firstError_mem_error (inputs : List (Except Nat Nat)) (seen : List Nat)
    (j e : Nat) (hj : j ∈ seen) (he : inputs[j]? = some (.error e)) :
    ∃ e2, firstError inputs seen = some e2 := by
  induction seen with
  | nil => cases hj
  | cons i rest ih =>
      rcases List.mem_cons.mp hj with rfl | hj'
      · exact ⟨e, by simp [firstError, he]⟩
      · cases hx : inputs[i]? with
        | none => simpa [firstError, hx] using ih hj'
        | some x =>
            cases x with
            | ok v => simpa [firstError, hx] using ih hj'
            | error e2 => exact ⟨e2, by simp [firstError, hx]⟩

theorem firstError_none_of_allOk (inputs : List (Except Nat Nat))
    (hall : ∀ x ∈ inputs, ∃ v, x = .ok v) :
    ∀ seen : List Nat, firstError inputs seen = none := by
  intro seen
  induction seen with
  | nil => rfl
  | cons i rest ih =>
      cases hx : inputs[i]? with
      | none => simpa [firstError, hx] using ih
      | some x =>
          have hmem : x ∈ inputs := by
            rcases List.getElem?_eq_some.mp hx with ⟨hlt, hget⟩
            exact hget ▸ List.getElem_mem hlt
          rcases hall x hmem with ⟨v, rfl⟩
          simpa [firstError, hx] using ih

theorem list_all_map {α β : Type} (f : α → β) (p : β → Bool) (l : List α) :
    (l.map f).all p = l.all (fun a => p (f a)) := by
  induction l with
  | nil => rfl
  | cons a l ih => simp [List.all_cons, ih]

theorem covers_mem {n : Nat} {seen : List Nat} (h : covers n seen = true)
    {j : Nat} (hj : j < n) : j ∈ seen := by
  unfold covers at h
  exact of_decide_eq_true (List.all_eq_true.mp h j (List.mem_range.mpr hj))

theorem slotsOf_nil (inputs : List (Except Nat Nat)) :
    slotsOf inputs [] = List.replicate inputs.length none := by
  apply List.ext_getElem
  · simp [slotsOf]
  · intro j h1 h2
    simp [slotsOf, slotAt]

theorem slotsOf_set (inputs : List (Except Nat Nat)) (seen : List Nat)
    (i v : Nat) (hv : inputs[i]? = some (.ok v)) :
    (slotsOf inputs seen).set i (some v) = slotsOf inputs (seen ++ [i]) := by
  apply List.ext_getElem
  · simp [slotsOf]
  · intro j h1 h2
    rw [List.getElem_set]
    by_cases hij : i = j
    · subst hij
      simp [slotsOf, slotAt, hv]
    · have hji : (j = i) = False := by
        simp only [eq_iff_iff, iff_false]
        exact fun hc => hij hc.symm
      rw [if_neg hij]
      simp only [slotsOf, List.getElem_map, List.getElem_range]
      simp only [slotAt, List.mem_append, List.mem_singleton, hji, or_false]

theorem allFilled_slotsOf (inputs : List (Except Nat Nat)) (seen : List Nat)
    (hok : ∀ j ∈ seen, ∀ e, inputs[j]? ≠ some (.error e)) :
    allFilled (slotsOf inputs seen) = covers inputs.length seen := by
  unfold allFilled slotsOf covers
  rw [list_all_map, Bool.eq_iff_iff]
  simp only [List.all_eq_true, List.mem_range, Function.comp]
  constructor
  · intro h j hj
    have hsl := h j hj
    by_cases hs : j ∈ seen
    · simp [hs]
    · simp [slotAt, hs] at hsl
  · intro h j hj
    have hs : j ∈ seen := of_decide_eq_true (h j hj)
    have hx : inputs[j]? = some inputs[j] := List.getElem?_eq_getElem hj
    cases he : inputs[j] with
    | ok v => simp [slotAt, hs, hx, he]
    | error e => exact absurd (he ▸ hx) (hok j hs e)

theorem slots_values (inputs : List (Except Nat Nat)) (seen : List Nat)
    (hcov : covers inputs.length seen = true)
    (hok : ∀ j ∈ seen, ∀ e, inputs[j]? ≠ some (.error e)) :
    (slotsOf inputs seen).map (fun o => o.getD 0) = valuesOf inputs := by
  apply List.ext_getElem
  · simp [slotsOf, valuesOf]
  · intro j h1 h2
    have hj : j < inputs.length := by simpa [valuesOf] using h2
    have hs : j ∈ seen := covers_mem hcov hj
    have hx : inputs[j]? = some inputs[j] := List.getElem?_eq_getElem hj
    cases he : inputs[j] with
    | ok v =>
        simp only [List.getElem_map, slotsOf, List.getElem_range, valuesOf]
        simp [slotAt, hs, hx, he, okVal]
    | error e => exact absurd (he ▸ hx) (hok j hs e)

theorem wstep_inv (inputs : List (Except Nat Nat)) (seen : List Nat)
    (s : WState) (i : Nat) (hni : i ∉ seen) (hi : i < inputs.length)
    (hIv : WInv inputs seen s) :
    WInv inputs (seen ++ [i]) (wstep inputs s i) := by
  unfold WInv at hIv ⊢
  rw [firstError_append]
  cases hfe : firstError inputs seen with
  | some e =>
      rw [hfe] at hIv
      have hno : wstep inputs s i = s := by
        simp [wstep, hIv]
      rw [hno]
      exact hIv
  | none =>
      rw [hfe] at hIv
      obtain ⟨hslots, hres⟩ := hIv
      have hok := firstError_none_mem inputs seen hfe
      have hcov : covers inputs.length seen = false := by
        cases hc : covers inputs.length seen with
        | false => rfl
        | true => exact absurd (covers_mem hc hi) hni
      rw [hcov, if_neg (by simp)] at hres
      cases hx : inputs[i]? with
      | none =>
          exact absurd hx (by simp [List.getElem?_eq_getElem hi])
      | some x =>
          cases x with
          | error e =>
              have hw : wstep inputs s i = ⟨s.slots, some (.error e)⟩ := by
                simp [wstep, hres, hx]
              rw [hw]
              simp [firstError, hx]
          | ok v =>
              have hok2 : ∀ j ∈ seen ++ [i], ∀ e, inputs[j]? ≠ some (.error e) := by
                intro j hj e
                rcases List.mem_append.mp hj with hj' | hj'
                · exact hok j hj' e
                · rw [List.mem_singleton.mp hj']
                  intro hc
                  rw [hx] at hc
                  cases hc
              have hset : s.slots.set i (some v) = slotsOf inputs (seen ++ [i]) := by
                rw [hslots]; exact slotsOf_set inputs seen i v hx
              have hfill : allFilled (s.slots.set i (some v))
                  = covers inputs.length (seen ++ [i]) := by
                rw [hset]; exact allFilled_slotsOf inputs (seen ++ [i]) hok2
              have hw : wstep inputs s i =
                  if allFilled (s.slots.set i (some v)) then
                    (⟨s.slots.set i (some v),
                      some (.ok ((s.slots.set i (some v)).map
                        (fun o => o.getD 0)))⟩ : WState)
                  else ⟨s.slots.set i (some v), none⟩ := by
                simp [wstep, hres, hx]
              simp only [firstError, hx]
              rw [hw]
              cases hfl : allFilled (s.slots.set i (some v)) with
              | true =>
                  have hcv : covers inputs.length (seen ++ [i]) = true := by
                    rw [← hfill]; exact hfl
                  have hmap : (s.slots.set i (some v)).map (fun o => o.getD 0)
                      = valuesOf inputs := by
                    rw [hset]
                    exact slots_values inputs (seen ++ [i]) hcv hok2
                  refine ⟨by simp [hset], ?_⟩
                  simp [hcv, hmap]
              | false =>
                  have hcv : covers inputs.length (seen ++ [i]) = false := by
                    rw [← hfill]; exact hfl
                  refine ⟨by simp [hset], ?_⟩
                  simp [hcv]

theorem wrun_inv_aux (inputs : List (Except Nat Nat)) :
    ∀ (rest seen : List Nat) (s : WState),
      (seen ++ rest).Nodup →
      (∀ j ∈ seen ++ rest, j < inputs.length) →
      WInv inputs seen s →
      WInv inputs (seen ++ rest) (rest.foldl (wstep inputs) s) := by
  intro rest
  induction rest with
  | nil => intro seen s _ _ h; simpa using h
  | cons i rest ih =>
      intro seen s hnd hb hIv
      have hassoc : seen ++ i :: rest = (seen ++ [i]) ++ rest := by simp
      have hni : i ∉ seen := by
        have hnd2 : (i :: (seen ++ rest)).Nodup :=
          (List.perm_middle.nodup_iff).mp hnd
        have := (List.nodup_cons.mp hnd2).1
        intro hc
        exact this (List.mem_append.mpr (Or.inl hc))
      have hi : i < inputs.length := hb i (by simp)
      have hstep := wstep_inv inputs seen s i hni hi hIv
      rw [hassoc, List.foldl_cons]
      apply ih (seen ++ [i]) (wstep inputs s i)
      · rw [← hassoc]; exact hnd
      · intro j hj
        apply hb
        rw [hassoc]
        exact hj
      · exact hstep

/-- Claim C2: for a collection of `N` input promises completing in an
arbitrary order (a permutation of the input indices), `whenAll` resolves iff
all `N` inputs resolve — in that case with the ordered collection of all `N`
values, in input order — and if any input rejects, it rejects with the first
error observed in completion order, regardless of the relative completion
order of the inputs.  (The model has no cancellation operation: the
remaining inputs' settlements are read-only and unaffected by the run.) -/
theorem spec_C2 (inputs : List (Except Nat Nat)) (order : List Nat)
    (hperm : order.Perm (List.range inputs.length)) :
    ((∀ x ∈ inputs, ∃ v, x = .ok v) →
        (wrun inputs order).result = some (.ok (valuesOf inputs)))
    ∧ (∀ e, firstError inputs order = some e →
        (wrun inputs order).result = some (.error e))
    ∧ ((∃ vs, (wrun inputs order).result = some (.ok vs)) ↔
        (∀ x ∈ inputs, ∃ v, x = .ok v)) := by
  have hnd : order.Nodup := hperm.nodup_iff.mpr (List.nodup_range _)
  have hb : ∀ j ∈ order, j < inputs.length := fun j hj =>
    List.mem_range.mp (hperm.mem_iff.mp hj)
  have hinit : WInv inputs [] (wInit inputs) := by
    unfold WInv
    simp only [firstError]
    refine ⟨?_, ?_⟩
    · show (wInit inputs).slots = slotsOf inputs []
      rw [slotsOf_nil]
      rfl
    · show (wInit inputs).result = _
      cases hn : inputs.length with
      | zero =>
          have hi0 : inputs = [] := List.length_eq_zero.mp hn
          subst hi0
          simp [wInit, covers, valuesOf]
      | succ m =>
          have hc : covers (m + 1) [] = false := by
            cases hcc : covers (m + 1) [] with
            | false => rfl
            | true =>
                exact absurd (@covers_mem (m + 1) [] hcc 0 (by omega))
                  (List.not_mem_nil 0)
          rw [hc]
          simp [wInit, hn]
  have hfin : WInv inputs order (wrun inputs order) := by
    have := wrun_inv_aux inputs order [] (wInit inputs)
      (by simpa using hnd) (by simpa using hb) hinit
    simpa [wrun] using this
  have hcovOrder : covers inputs.length order = true := by
    unfold covers
    rw [List.all_eq_true]
    intro j hj
    exact decide_eq_true (hperm.mem_iff.mpr hj)
  have hAll : (∀ x ∈ inputs, ∃ v, x = .ok v) →
      (wrun inputs order).result = some (.ok (valuesOf inputs)) := by
    intro hall
    have hfe : firstError inputs order = none :=
      firstError_none_of_allOk inputs hall order
    unfold WInv at hfin
    rw [hfe] at hfin
    rw [hfin.2, hcovOrder]
    simp
  have hErr : ∀ e, firstError inputs order = some e →
      (wrun inputs order).result = some (.error e) := by
    intro e he
    unfold WInv at hfin
    rw [he] at hfin
    exact hfin
  refine ⟨hAll, hErr, ?_, ?_⟩
  · rintro ⟨vs, hvs⟩
    by_contra hnall
    push_neg at hnall
    obtain ⟨x, hx, hnotok⟩ := hnall
    obtain ⟨e, rfl⟩ : ∃ e, x = .error e := by
      cases x with
      | ok v => exact absurd rfl (hnotok v)
      | error e => exact ⟨e, rfl⟩
    obtain ⟨j, hjlt, hget⟩ := List.getElem_of_mem hx
    have hjo : j ∈ order := hperm.mem_iff.mpr (List.mem_range.mpr hjlt)
    have hx2 : inputs[j]? = some (.error e) := by
      rw [List.getElem?_eq_getElem hjlt, hget]
    obtain ⟨e2, he2⟩ := firstError_mem_error inputs order j e hjo hx2
    have hcontra := hErr e2 he2
    rw [hvs] at hcontra
    simp at hcontra
  · intro hall
    exact ⟨valuesOf inputs, hAll hall⟩

/-- Witness for C2: three inputs, the middle one rejecting, completing in
the order 2, 1, 0: whenAll rejects with input 1's error, the first observed;
with all three resolving and the same completion order it resolves with the
values in input order. -/
theorem spec_C2_witness :
    (wrun [.ok 10, .error 7, .ok 30] [2, 1, 0]).result = some (.error 7)
    ∧ (wrun [.ok 10, .ok 20, .ok 30] [2, 1, 0]).result
        = some (.ok (valuesOf [.ok 10, .ok 20, .ok 30])) :=
  ⟨(spec_C2 [.ok 10, .error 7, .ok 30] [2, 1, 0] (by decide)).2.1 7 rfl,
   (spec_C2 [.ok 10, .ok 20, .ok 30] [2, 1, 0] (by decide)).1
     (by intro x hx; fin_cases hx <;> exact ⟨_, rfl⟩)⟩

end Pistache.Async

namespace Pistache.Http

/-- Claim C4: a connection whose header section does not complete within the
header-read timeout — for instance one trickling the request line one byte
at a time, slower than the timeout — is closed by the server with a
`408 Request Timeout`; the same request delivered fast enough that the
complete headers (and message) arrive within the deadlines succeeds with no
408; and the parser is resumable across partial reads: feeding a byte
sequence in any two pieces equals feeding it whole, so a request line split
across multiple partial reads parses identically. -/
theorem spec_C4 (hT bT : Nat) (events : List (Nat × List Char)) :
    (headersBy hT events = false →
      is408 (serverOutcome hT bT events) = true
      ∧ connClosed (serverOutcome hT bT events) = true)
    ∧ (fullWithin hT bT events = true →
      ∃ t, serverOutcome hT bT events = .r200 t)
    ∧ (∀ (p : ParseState) (a b : List Char), feed p (a ++ b) = feed (feed p a) b) := by
  refine ⟨?_, ?_, ?_⟩
  · intro hfalse
    cases h1 : timeOf headersDone initParse events with
    | none => simp [serverOutcome, h1, is408, connClosed]
    | some th =>
        simp only [headersBy, h1, decide_eq_false_iff_not, not_le] at hfalse
        simp only [serverOutcome, h1, if_pos hfalse]
        exact ⟨rfl, rfl⟩
  · intro h
    cases h1 : timeOf headersDone initParse events with
    | none => simp [fullWithin, h1] at h
    | some th =>
        cases h2 : timeOf msgDone initParse events with
        | none => simp [fullWithin, h1, h2] at h
        | some tb =>
            simp only [fullWithin, h1, h2, Bool.and_eq_true,
              decide_eq_true_eq] at h
            obtain ⟨hth, htb⟩ := h
            simp only [serverOutcome, h1, h2, if_neg (not_lt.mpr hth),
              if_neg (not_lt.mpr htb)]
            exact ⟨tb, rfl⟩
  · intro p a b
    simp [feed, List.foldl_append]

/-- Witness for C4: the request line "GET /ping HTTP/1.1\r\n" trickled one
byte every 300 ms against a 2-second header timeout yields a 408 and the
connection closes; the same request with its headers delivered in two fast
chunks (0 ms and 500 ms) is served normally; and feeding the parser
"GET /pi" then "ng HTT" equals feeding "GET /ping HTT" whole. -/
theorem spec_C4_witness :
    (is408 (serverOutcome 2000 2000
        [(0, ['G']), (300, ['E']), (600, ['T']), (900, [' ']), (1200, ['/']),
         (1500, ['p']), (1800, ['i']), (2100, ['n']), (2400, ['g']),
         (2700, [' ']), (3000, ['H']), (3300, ['T']), (3600, ['T']),
         (3900, ['P']), (4200, ['/']), (4500, ['1']), (4800, ['.']),
         (5100, ['1']), (5400, ['\r']), (5700, ['\n'])]) = true
      ∧ connClosed (serverOutcome 2000 2000
        [(0, ['G']), (300, ['E']), (600, ['T']), (900, [' ']), (1200, ['/']),
         (1500, ['p']), (1800, ['i']), (2100, ['n']), (2400, ['g']),
         (2700, [' ']), (3000, ['H']), (3300, ['T']), (3600, ['T']),
         (3900, ['P']), (4200, ['/']), (4500, ['1']), (4800, ['.']),
         (5100, ['1']), (5400, ['\r']), (5700, ['\n'])]) = true)
    ∧ (∃ t, serverOutcome 2000 2000
        [(0, "GET /ping HTTP/1.1\r\nHost: localhost\r\n".toList),
         (500, "\r\n".toList)] = .r200 t)
    ∧ feed initParse ("GET /pi".toList ++ "ng HTT".toList)
        = feed (feed initParse "GET /pi".toList) "ng HTT".toList :=
  ⟨(spec_C4 2000 2000
      [(0, ['G']), (300, ['E']), (600, ['T']), (900, [' ']), (1200, ['/']),
       (1500, ['p']), (1800, ['i']), (2100, ['n']), (2400, ['g']),
       (2700, [' ']), (3000, ['H']), (3300, ['T']), (3600, ['T']),
       (3900, ['P']), (4200, ['/']), (4500, ['1']), (4800, ['.']),
       (5100, ['1']), (5400, ['\r']), (5700, ['\n'])]).1 (by decide),
   (spec_C4 2000 2000
      [(0, "GET /ping HTTP/1.1\r\nHost: localhost\r\n".toList),
       (500, "\r\n".toList)]).2.1 (by decide),
   (spec_C4 2000 2000 []).2.2 initParse "GET /pi".toList "ng HTT".toList⟩

/-- Claim C5: with headers complete at time `th` within the header-read
timeout, the body-read deadline is measured from `th` (when body parsing
starts, not from connection start) and is independent of the header
deadline: if the message does not complete within `bT` of `th`, the server
issues the 408 exactly at `th + bT` — hence no earlier than `bT` after body
parsing began — and the connection is then closed; if the message completes
within `bT` of `th` (even at an absolute time past the header deadline —
the deadlines do not stack), the request is served with a non-408
response. -/
theorem spec_C5 (hT bT : Nat) (events : List (Nat × List Char)) (th : Nat)
    (hh : timeOf headersDone initParse events = some th) (hth : th ≤ hT) :
    (bodyDoneWithin bT th events = false →
      serverOutcome hT bT events = .r408 (th + bT)
      ∧ connClosed (serverOutcome hT bT events) = true)
    ∧ (bodyDoneWithin bT th events = true →
      ∃ tb, timeOf msgDone initParse events = some tb
        ∧ serverOutcome hT bT events = .r200 tb
        ∧ is408 (serverOutcome hT bT events) = false) := by
  have hnlt : ¬ hT < th := not_lt.mpr hth
  cases h2 : timeOf msgDone initParse events with
  | none =>
      constructor
      · intro _
        simp only [serverOutcome, hh, h2, if_neg hnlt]
        exact ⟨trivial, rfl⟩
      · intro h
        simp [bodyDoneWithin, h2] at h
  | some tb =>
      constructor
      · intro h
        simp only [bodyDoneWithin, h2, decide_eq_false_iff_not, not_le] at h
        simp only [serverOutcome, hh, h2, if_neg hnlt, if_pos h]
        exact ⟨trivial, rfl⟩
      · intro h
        simp only [bodyDoneWithin, h2, decide_eq_true_eq] at h
        simp only [serverOutcome, hh, h2, if_neg hnlt, if_neg (not_lt.mpr h)]
        exact ⟨tb, rfl, rfl, rfl⟩

/-- Witness for C5: complete headers with `Content-Length: 32` and only 3
body bytes, all at time 0, with header timeout 1 s and body timeout 2 s,
yield a 408 issued at 0 + 2000 ms and a closed connection; headers at 1 s
(within the 2 s header timeout) and the full 8-byte body at 3 s (within
2 s + 4 s, though past the header deadline) are served normally. -/
theorem spec_C5_witness :
    (serverOutcome 1000 2000
        [(0, "POST /ping HTTP/1.1\r\nHost: localhost\r\nContent-Type: text/plain\r\nContent-Length: 32\r\n\r\nabc".toList)]
      = .r408 (0 + 2000))
    ∧ (∃ tb, timeOf msgDone initParse
          [(1000, "POST /ping HTTP/1.1\r\nHost: localhost\r\nContent-Type: text/plain\r\nContent-Length: 8\r\n\r\n".toList),
           (3000, "abcdefgh\r\n\r\n".toList)] = some tb
        ∧ serverOutcome 2000 4000
          [(1000, "POST /ping HTTP/1.1\r\nHost: localhost\r\nContent-Type: text/plain\r\nContent-Length: 8\r\n\r\n".toList),
           (3000, "abcdefgh\r\n\r\n".toList)] = .r200 tb
        ∧ is408 (serverOutcome 2000 4000
          [(1000, "POST /ping HTTP/1.1\r\nHost: localhost\r\nContent-Type: text/plain\r\nContent-Length: 8\r\n\r\n".toList),
           (3000, "abcdefgh\r\n\r\n".toList)]) = false) :=
  ⟨((spec_C5 1000 2000
      [(0, "POST /ping HTTP/1.1\r\nHost: localhost\r\nContent-Type: text/plain\r\nContent-Length: 32\r\n\r\nabc".toList)]
      0 (by decide) (by decide)).1 (by decide)).1,
   (spec_C5 2000 4000
      [(1000, "POST /ping HTTP/1.1\r\nHost: localhost\r\nContent-Type: text/plain\r\nContent-Length: 8\r\n\r\n".toList),
       (3000, "abcdefgh\r\n\r\n".toList)]
      1000 (by decide) (by decide)).2 (by decide)⟩

/-- Claim C9: a connection that is accepted but never sends a single byte is
still timed out: the header-read deadline fires at the configured timeout
`hT` measured from connection start, the server's reaction is a 408 issued
at `hT`, and the emitted status line begins exactly with
"HTTP/1.1 408 Request Timeout". -/
theorem spec_C9 (hT bT : Nat) :
    serverOutcome hT bT [] = .r408 hT
    ∧ strStarts "HTTP/1.1 408 Request Timeout"
        (statusLineOf (serverOutcome hT bT [])) = true := by
  constructor
  · rfl
  · show strStarts "HTTP/1.1 408 Request Timeout"
        "HTTP/1.1 408 Request Timeout\r\n\r\n" = true
    decide

end Pistache.Http

namespace Pistache

/-- Claim C8: with the output stream absent (null), `StringToStreamLogger::log`
performs no output and completes normally, with no effect on any other state:
the logger and the syslog sink are returned unchanged, for every severity
level and every message. -/
theorem spec_C8 (st : LogState) (lvl : Int) (msg : String)
    (h : st.logger.out = none) : logRun st lvl msg = st := by
  unfold logRun
  rw [h]

/-- Witness for C8 at a concrete logger with a null stream. -/
theorem spec_C8_witness :
    logRun ⟨⟨none, 3⟩, ["boot"]⟩ 7 "hello" = ⟨⟨none, 3⟩, ["boot"]⟩ :=
  spec_C8 ⟨⟨none, 3⟩, ["boot"]⟩ 7 "hello" rfl

/-- Claim C10: `isEnabledFor(level)` is true iff the integer value of `level`
is at least the configured threshold; `log(level, message)` writes the message
followed by an end-of-line to the output stream exactly when the stream is
present and the level meets the threshold (and otherwise leaves the stream
unchanged); and severity filtering is monotone in the level. -/
theorem spec_C10 (st : LogState) (lvl lvl' : Int) (msg : String) :
    (isEnabledFor st.logger lvl = decide (st.logger.level ≤ lvl))
    ∧ ((logRun st lvl msg).logger.out =
        if st.logger.out.isSome ∧ st.logger.level ≤ lvl then
          some (st.logger.out.getD "" ++ msg ++ "\n")
        else st.logger.out)
    ∧ (lvl ≤ lvl' → isEnabledFor st.logger lvl = true →
        isEnabledFor st.logger lvl' = true) := by
  refine ⟨rfl, ?_, ?_⟩
  · unfold logRun isEnabledFor
    cases h : st.logger.out with
    | none => simp [h]
    | some s =>
        by_cases hle : st.logger.level ≤ lvl
        · simp [h, hle, ge_iff_le]
        · simp [h, hle, ge_iff_le]
  · intro hlt h
    unfold isEnabledFor at h ⊢
    simp only [ge_iff_le, decide_eq_true_eq] at h ⊢
    exact le_trans h hlt

/-- Witness for C10: concrete logger, the enabled-write branch and the
monotonicity implication discharged at level 2 ≤ 5. -/
theorem spec_C10_witness :
    (logRun ⟨⟨some "x", 1⟩, []⟩ 2 "m").logger.out =
      (if (Option.some "x").isSome ∧ (1 : Int) ≤ 2 then
          some ((Option.some "x").getD "" ++ "m" ++ "\n")
        else some "x")
    ∧ isEnabledFor ⟨some "x", 1⟩ 5 = true :=
  ⟨(spec_C10 ⟨⟨some "x", 1⟩, []⟩ 2 5 "m").2.1,
   (spec_C10 ⟨⟨some "x", 1⟩, []⟩ 2 5 "m").2.2 (by decide) (by decide)⟩

end Pistache

namespace Pistache.Compression

theorem rle_roundtrip (bs : List Nat) : rleDecode (rleEncode bs) = bs := by
  induction bs with
  | nil => rfl
  | cons x xs ih =>
      cases h : rleEncode xs with
      | nil =>
          have hxs : xs = [] := by rw [← ih, h]; rfl
          subst hxs
          simp [rleEncode, rleDecode]
      | cons p rest =>
          obtain ⟨n, y⟩ := p
          by_cases hxy : x = y
          · subst hxy
            simp only [rleEncode, h, if_pos rfl]
            rw [← ih, h]
            show List.replicate (n + 1) x ++ rleDecode rest
                = x :: (List.replicate n x ++ rleDecode rest)
            simp [List.replicate_succ]
          · simp only [rleEncode, h, if_neg hxy]
            rw [← ih, h]
            show List.replicate 1 x ++ rleDecode ((n, y) :: rest)
                = x :: rleDecode ((n, y) :: rest)
            simp [List.replicate]

theorem unflatten_flatten (ps : List (Nat × Nat)) :
    unflattenDecode (flattenPairs ps) = rleDecode ps := by
  induction ps with
  | nil => rfl
  | cons p rest ih =>
      obtain ⟨n, y⟩ := p
      show List.replicate n y ++ unflattenDecode (flattenPairs rest)
          = List.replicate n y ++ rleDecode rest
      rw [ih]

theorem decode_encode (E : Encoding) (bs : List Nat) :
    decodeBytes E (encodeBytes E bs) = bs := by
  cases E with
  | identity => rfl
  | deflate =>
      show unflattenDecode (flattenPairs (rleEncode bs)) = bs
      rw [unflatten_flatten, rle_roundtrip]
  | gzip =>
      show unflattenDecode ((31 :: 139 :: flattenPairs (rleEncode bs)).drop 2)
          = bs
      rw [List.drop_succ_cons, List.drop_succ_cons, List.drop_zero,
        unflatten_flatten, rle_roundtrip]

/-- Claim C6: for every body `B` and the encoding `E` negotiated from the
client's Accept-Encoding list, the body bytes the server emits are exactly
the encoding of `B` under `E`, the response's Content-Encoding header names
`E`, and decoding the emitted bytes under `E` — indeed decoding any
supported encoding's output — reproduces `B` exactly, byte for byte. -/
theorem spec_C6 (accepts : List Encoding) (body : List Nat) :
    (serverEmit accepts body).bytes
      = encodeBytes (bestAcceptEncoding accepts) body
    ∧ (serverEmit accepts body).contentEncoding = bestAcceptEncoding accepts
    ∧ decodeBytes (bestAcceptEncoding accepts) (serverEmit accepts body).bytes
      = body
    ∧ (∀ E : Encoding, decodeBytes E (encodeBytes E body) = body) :=
  ⟨rfl, rfl, decode_encode (bestAcceptEncoding accepts) body,
   fun E => decode_encode E body⟩

end Pistache.Compression

namespace Pistache.Writer

theorem decDigits_len_le :
    ∀ (k n : Nat), n < 10 ^ k → 1 ≤ k → (decDigits n).length ≤ k := by
  intro k
  induction k with
  | zero => intro n _ h1; omega
  | succ k ih =>
      intro n hn _
      by_cases h : n < 10
      · rw [decDigits]
        simp [h]
      · rw [decDigits]
        simp only [dif_neg h, List.length_append, List.length_singleton]
        have hk : 1 ≤ k := by
          rcases Nat.eq_zero_or_pos k with rfl | hk
          · rw [pow_one] at hn; omega
          · exact hk
        have hdiv : n / 10 < 10 ^ k := by
          rw [Nat.div_lt_iff_lt_mul (by norm_num)]
          calc n < 10 ^ (k + 1) := hn
            _ = 10 ^ k * 10 := by ring
        have := ih (n / 10) hdiv hk
        omega

theorem serializedChars_length (code : Nat) (body : List Char) :
    (serializedChars code body).length
      = 31 + (decDigits code).length + (decDigits body.length).length
        + body.length := by
  have h9 : ("HTTP/1.1 ".toList).length = 9 := rfl
  have h2 : ("\r\n".toList).length = 2 := rfl
  have h16 : ("Content-Length: ".toList).length = 16 := rfl
  have h4 : ("\r\n\r\n".toList).length = 4 := rfl
  simp only [serializedChars, List.length_append, h9, h2, h16, h4]
  omega

/-- Claim C7: a first `send(code, body)` on a fresh writer succeeds and
stores exactly the sent status code and the serialized byte count of that
send — the count is strictly greater than 1, and for a short text body
(status below 1000, body up to 250 bytes) below the sane upper bound 300 —
and a second `send` on the same writer instance fails with the
invalid-state error. -/
theorem spec_C7 (code : Nat) (body : List Char) (c2 : Nat) (b2 : List Char) :
    ∃ w : ResponseWriter,
      send freshWriter code body = .ok w
      ∧ getResponseCode w = code
      ∧ getResponseSize w = (serializedChars code body).length
      ∧ 1 < getResponseSize w
      ∧ (code < 1000 → body.length ≤ 250 → getResponseSize w < 300)
      ∧ send w c2 b2 = .error .invalidState := by
  refine ⟨⟨true, code, (serializedChars code body).length⟩, rfl, rfl, rfl,
    ?_, ?_, rfl⟩
  · show 1 < (serializedChars code body).length
    rw [serializedChars_length]
    omega
  · intro hcode hbody
    show (serializedChars code body).length < 300
    rw [serializedChars_length]
    have hc : (decDigits code).length ≤ 3 :=
      decDigits_len_le 3 code (by norm_num; omega) (by norm_num)
    have hb : (decDigits body.length).length ≤ 3 :=
      decDigits_len_le 3 body.length (by norm_num; omega) (by norm_num)
    omega

/-- Witness for C7: sending status 200 with body "127.0.0.1" once succeeds
with the stored code 200 and a size strictly between 1 and 300; a second
send fails with the invalid-state error. -/
theorem spec_C7_witness :
    ∃ w : ResponseWriter,
      send freshWriter 200 "127.0.0.1".toList = .ok w
      ∧ getResponseCode w = 200
      ∧ 1 < getResponseSize w
      ∧ getResponseSize w < 300
      ∧ send w 200 "127.0.0.1".toList = .error .invalidState := by
  obtain ⟨w, h1, h2, h3, h4, h5, h6⟩ :=
    spec_C7 200 "127.0.0.1".toList 200 "127.0.0.1".toList
  exact ⟨w, h1, h2, h4, h5 (by decide) (by decide), h6⟩

end Pistache.Writer
